import Mathlib

/-!
Verification of the slice-assignment coordinator of the `sliced` reverse
proxy: the `SliceAssignments` value object (`src/slice_assignments.rs` and
`src/db.rs`), the slice router (`src/selection.rs`), the conditional store
write (`src/db.rs`), the prober health update (`src/health_check.rs`) and
the rebalancer (`src/slice_assignments.rs`).

Modelling conventions:
- A Rust `SocketAddr` is `SockAddr`: an IPv4 or IPv6 address carrying one
  natural number that encodes `ip * 65536 + port`; since ports are below
  65536 this encoding is order-isomorphic to the derived lexicographic
  ordering on (ip, port) that Rust uses, and all IPv4 addresses compare
  below all IPv6 addresses, as in Rust.
- Code that can panic (`unwrap`, explicit panics, out-of-range reads) is
  modelled in the `Option` monad; `none` marks a panic.
- The pingora-ketama continuum is an external dependency; the functions
  that use it take the ring as a parameter
  `ring : List SockAddr → Nat → Option SockAddr` mapping the IPv4 bucket
  list and the one-byte lookup seed to the chosen bucket. Theorems either
  hold for every ring or assume only the contract of the library lookup
  (the result is a member of the bucket list, and lookup on an empty
  bucket list returns nothing). `ringLookup` below is a concrete function
  satisfying that contract, used to instantiate witnesses.
- `u32` load arithmetic is modelled on `Nat` (no overflow occurs at any
  input considered here), and the `f32` arithmetic of the rebalancer is
  modelled exactly over `ℚ`, with `OVERLOAD_THRESHOLD` taken as the exact
  rational value of the `f32` literal `1.2`. Concrete inputs below keep
  every compared quantity far from rounding boundaries, so the rational
  comparisons agree with the `f32` ones.
-/

/-- Model of `std::net::SocketAddr`: IPv4 or IPv6, with `ip * 65536 + port`
packed into one natural number. -/
inductive SockAddr where
  | v4 (a : Nat)
  | v6 (a : Nat)
deriving DecidableEq, Repr

/-- Order-embedding of `SockAddr` into a lexicographic pair, mirroring the
derived `Ord` on Rust `SocketAddr` (all V4 before all V6, then by
(ip, port)). -/
def SockAddr.key : SockAddr → Lex (Nat × Nat)
  | .v4 a => toLex (0, a)
  | .v6 a => toLex (1, a)

lemma SockAddr.key_injective : Function.Injective SockAddr.key := by
  intro a b h
  cases a <;> cases b <;> simp [SockAddr.key, toLex] at h <;> simp [h]

instance : LinearOrder SockAddr := LinearOrder.lift' SockAddr.key SockAddr.key_injective

/-- `SocketAddr::ip().is_ipv4()`. -/
def SockAddr.isV4 : SockAddr → Bool
  | .v4 _ => true
  | .v6 _ => false

/-- `NUM_SLICES` from `slice_assignments.rs` / `db.rs`. -/
def NUM_SLICES : Nat := 100

/-- `iter().enumerate()` starting at a given index. -/
def enumerateFrom (n : Nat) : List α → List (Nat × α)
  | [] => []
  | a :: l => (n, a) :: enumerateFrom (n + 1) l

/-- `iter().enumerate()`. -/
def enumerate (l : List α) : List (Nat × α) := enumerateFrom 0 l

lemma mem_enumerateFrom (p : Nat × α) (n : Nat) (l : List α) :
    p ∈ enumerateFrom n l ↔ ∃ j, p.1 = n + j ∧ l.get? j = some p.2 := by
  induction l generalizing n with
  | nil => simp [enumerateFrom]
  | cons a t ih =>
    simp only [enumerateFrom, List.mem_cons, ih]
    constructor
    · rintro (rfl | ⟨j, hj, hget⟩)
      · exact ⟨0, rfl, rfl⟩
      · exact ⟨j + 1, by omega, by simpa using hget⟩
    · rintro ⟨j, hj, hget⟩
      cases j with
      | zero =>
        left
        obtain ⟨p1, p2⟩ := p
        simp at hget hj
        simp [hj, hget]
      | succ j =>
        right
        exact ⟨j, by omega, by simpa using hget⟩

lemma mem_enumerate (p : Nat × α) (l : List α) :
    p ∈ enumerate l ↔ l.get? p.1 = some p.2 := by
  rw [enumerate, mem_enumerateFrom]
  constructor
  · rintro ⟨j, hj, h⟩
    have : p.1 = j := by omega
    rwa [this]
  · intro h
    exact ⟨p.1, by omega, h⟩

lemma get?_enumerateFrom (n i : Nat) (l : List α) :
    (enumerateFrom n l).get? i = (l.get? i).map fun a => (n + i, a) := by
  induction l generalizing n i with
  | nil => simp [enumerateFrom]
  | cons a t ih =>
    cases i with
    | zero => simp [enumerateFrom]
    | succ i =>
      have harith : n + 1 + i = n + (i + 1) := by omega
      have h := ih (n + 1) i
      rw [harith] at h
      simpa [enumerateFrom] using h

lemma get?_enumerate (i : Nat) (l : List α) :
    (enumerate l).get? i = (l.get? i).map fun a => (i, a) := by
  simpa using get?_enumerateFrom 0 i l

lemma length_enumerateFrom (n : Nat) (l : List α) :
    (enumerateFrom n l).length = l.length := by
  induction l generalizing n with
  | nil => rfl
  | cons a t ih => simp [enumerateFrom, ih]

lemma length_enumerate (l : List α) : (enumerate l).length = l.length :=
  length_enumerateFrom 0 l

/-- A loop that stops (panics) at the first failing element: the `Option`
image of `(..).map(|x| ...).collect()` over closures that `unwrap`. -/
def optionMapList (f : α → Option β) : List α → Option (List β)
  | [] => some []
  | a :: l =>
    match f a with
    | none => none
    | some b => (optionMapList f l).map (b :: ·)

lemma optionMapList_congr {f g : α → Option β} (l : List α)
    (h : ∀ a ∈ l, f a = g a) : optionMapList f l = optionMapList g l := by
  induction l with
  | nil => rfl
  | cons a t ih =>
    simp only [optionMapList, h a (List.mem_cons_self a t),
      ih fun x hx => h x (List.mem_cons_of_mem a hx)]

lemma optionMapList_eq_none_of_head {f : α → Option β} (a : α) (l : List α)
    (h : f a = none) : optionMapList f (a :: l) = none := by
  simp [optionMapList, h]

/-- If a predicate holds at exactly one position of a list, `find?` returns
the element at that position. -/
lemma find?_eq_of_unique (p : α → Bool) (L : List α) (k : Nat) (b : α)
    (hk : L.get? k = some b) (hpb : p b = true)
    (huniq : ∀ j c, L.get? j = some c → p c = true → j = k) :
    L.find? p = some b := by
  induction L generalizing k with
  | nil => simp at hk
  | cons a t ih =>
    by_cases hpa : p a = true
    · have h0 : 0 = k := huniq 0 a rfl hpa
      rw [← h0] at hk
      simp at hk
      rw [hk] at hpa ⊢
      exact List.find?_cons_of_pos t hpa
    · cases k with
      | zero =>
        simp at hk
        rw [hk] at hpa
        exact absurd hpb hpa
      | succ k =>
        rw [List.find?_cons_of_neg t hpa]
        refine ih k (by simpa using hk) ?_
        intro j c hj hc
        have := huniq (j + 1) c (by simpa using hj) hc
        omega

/-- If a predicate holds at exactly one position of a list, the filtered
list has exactly one element. -/
lemma filter_length_one_of_unique (p : α → Bool) (L : List α) (k : Nat) (b : α)
    (hk : L.get? k = some b) (hpb : p b = true)
    (huniq : ∀ j c, L.get? j = some c → p c = true → j = k) :
    (L.filter p).length = 1 := by
  induction L generalizing k with
  | nil => simp at hk
  | cons a t ih =>
    by_cases hpa : p a = true
    · have h0 : 0 = k := huniq 0 a rfl hpa
      have htail : t.filter p = [] := by
        rw [List.filter_eq_nil_iff]
        intro c hc hpc
        obtain ⟨j, hj⟩ := List.mem_iff_get?.mp hc
        have := huniq (j + 1) c (by simpa using hj) hpc
        omega
      simp [List.filter_cons_of_pos hpa, htail]
    · cases k with
      | zero =>
        simp at hk
        rw [hk] at hpa
        exact absurd hpb hpa
      | succ k =>
        rw [List.filter_cons_of_neg hpa]
        refine ih k (by simpa using hk) ?_
        intro j c hj hc
        have := huniq (j + 1) c (by simpa using hj) hc
        omega

/-- `SliceAssignments` (identical field layout in `slice_assignments.rs`
and `db.rs`): the ordered worker list and, per slice, the index of its
owner in `servers`. -/
structure SliceAssignments where
  servers : List SockAddr
  assignments : List Nat
deriving DecidableEq, Repr

/-- Concrete stand-in for the pingora-ketama continuum lookup, used to
instantiate witnesses. It satisfies the contract assumed of the library:
it is a function of the bucket list, the result is a member of the bucket
list, and lookup over an empty bucket list returns nothing. -/
def ringLookup (buckets : List SockAddr) (seed : Nat) : Option SockAddr :=
  buckets.get? (seed % buckets.length)

lemma ringLookup_nil (seed : Nat) : ringLookup [] seed = none := rfl

lemma ringLookup_mem (buckets : List SockAddr) (seed : Nat) (a : SockAddr)
    (h : ringLookup buckets seed = some a) : a ∈ buckets :=
  List.get?_mem h

/-- The assignment loop shared by both constructors
(`slice_assignments.rs:30-35`, `db.rs:42-47`): for every slice index, look
up the ring built over the IPv4 buckets and take the position of the
returned address in `servers`; both `unwrap`s are modelled by `Option`. -/
def assignSlices (ring : List SockAddr → Nat → Option SockAddr)
    (servers : List SockAddr) : Option (List Nat) :=
  let buckets := servers.filter SockAddr.isV4
  optionMapList
    (fun i => (ring buckets i).bind fun addr =>
      servers.findIdx? fun s => decide (s = addr))
    (List.range NUM_SLICES)

/-- `SliceAssignments::new` from `slice_assignments.rs:21-40`: the servers
list is used as given (not sorted). -/
def SliceAssignments.new (ring : List SockAddr → Nat → Option SockAddr)
    (servers : List SockAddr) : Option SliceAssignments :=
  (assignSlices ring servers).map fun a => ⟨servers, a⟩

/-- `servers.sort()`: stable ascending sort by the derived order. -/
def sortAddrs (servers : List SockAddr) : List SockAddr :=
  servers.insertionSort (· ≤ ·)

/-- `SliceAssignments::new` from `db.rs:34-52`: identical to the other
constructor except that it sorts `servers` ascending first. -/
def SliceAssignments.newSorted (ring : List SockAddr → Nat → Option SockAddr)
    (servers : List SockAddr) : Option SliceAssignments :=
  SliceAssignments.new ring (sortAddrs servers)

/-- `SliceAssignments::update` from `slice_assignments.rs:41-74`.
Reproduces the source exactly: indices of removed servers are collected
from the old list, and only entries naming a removed index are reassigned
through the ring built over the new list; the remaining entries are kept
verbatim while `servers` is replaced. -/
def SliceAssignments.update (ring : List SockAddr → Nat → Option SockAddr)
    (sa : SliceAssignments) (servers : List SockAddr) : Option SliceAssignments :=
  if servers = sa.servers then some sa
  else
    let buckets := servers.filter SockAddr.isV4
    let removed := ((enumerate sa.servers).filter fun p =>
      decide (¬ p.2 ∈ servers)).map Prod.fst
    (optionMapList
      (fun p =>
        if p.2 ∈ removed then
          (ring buckets p.1).bind fun addr =>
            servers.findIdx? fun s => decide (s = addr)
        else some p.2)
      (enumerate sa.assignments)).map
      fun assignments => ⟨servers, assignments⟩

/-- Derived view: the worker address that owns slice `s`. -/
def SliceAssignments.ownerAddr (sa : SliceAssignments) (s : Nat) : Option SockAddr :=
  (sa.assignments.get? s).bind sa.servers.get?

/-- A backend as consumed by the router: its address and the slice set
stored in its extension map (`Backend::ext`). Health state is modelled
separately (`HealthStatusInner` below). -/
structure Backend where
  addr : SockAddr
  slices : List Nat
deriving DecidableEq, Repr

/-- The slice set of the worker at index `i`
(`slice_assignments.rs:100-105`): all slice indices whose assignment entry
equals `i`. -/
def backendSlices (assignments : List Nat) (i : Nat) : List Nat :=
  ((enumerate assignments).filter fun p => decide (p.2 = i)).map Prod.fst

/-- `SliceAssignments::to_backends` (`slice_assignments.rs:96-111`,
`db.rs:53-68`): one backend per worker, carrying its slice set. The
source accumulates into a `BTreeSet` ordered by address; on a sorted,
duplicate-free `servers` list that iterates in exactly this order. -/
def SliceAssignments.to_backends (sa : SliceAssignments) : List Backend :=
  (enumerate sa.servers).map fun p => ⟨p.2, backendSlices sa.assignments p.1⟩

/-- Outcome of `SliceSelection::iter` (`selection.rs:20-36`): an empty
iterator when there are no backends, the owning backend, or a panic. -/
inductive SelectionResult where
  | noUpstream
  | found (b : Backend)
  | panicked
deriving DecidableEq, Repr

/-- `SliceSelection::iter` (`selection.rs:20-36`): hash the key, reduce
modulo `NUM_SLICES`, return the first backend whose slice set contains the
slice; an empty backend list yields the empty iterator and a nonempty one
with no owner hits the explicit panic. The 64-bit default hasher is passed
in as `hashFn`. -/
def SliceSelection.iter (hashFn : List Nat → Nat) (backends : List Backend)
    (key : List Nat) : SelectionResult :=
  let slice := hashFn key % NUM_SLICES
  if backends.isEmpty then SelectionResult.noUpstream
  else
    match backends.find? fun b => decide (slice ∈ b.slices) with
    | some b => SelectionResult.found b
    | none => SelectionResult.panicked

/-- One row of the `assignments` table (`db.rs:16-21`); the JSON payload is
modelled by the deserialized value itself. -/
structure Row where
  id : Nat
  timestamp : Int
  data : SliceAssignments
deriving DecidableEq, Repr

/-- The conditional single-row update issued by `DB::write_assignments`
(`db.rs:125`): `UPDATE assignments SET timestamp = ?, data = ? WHERE
id = 1 AND timestamp = ?`, returning the new table and the number of
affected rows. -/
def sqlCasUpdate (table : List Row) (newTs : Int) (sa : SliceAssignments)
    (expected : Int) : List Row × Nat :=
  (table.map fun r =>
      if r.id = 1 ∧ r.timestamp = expected then ⟨r.id, newTs, sa⟩ else r,
   (table.filter fun r => decide (r.id = 1 ∧ r.timestamp = expected)).length)

/-- `DB::write_assignments` (`db.rs:113-131`): run the conditional update
with a fresh wall-clock timestamp (taken as the parameter `newTs`) and
report `(rows_affected > 0, new_timestamp)`. -/
def write_assignments (table : List Row) (sa : SliceAssignments)
    (expected : Int) (newTs : Int) : List Row × (Bool × Int) :=
  let r := sqlCasUpdate table newTs sa expected
  (r.1, (decide (0 < r.2), newTs))

/-- `SliceUsage` (`health_check.rs:114-117`). -/
structure SliceUsage where
  load : Nat
deriving DecidableEq, Repr

/-- `Usage` (`health_check.rs:110-113`): per-slice load report parsed from
the probe body; the hash map is carried as an association list. -/
structure Usage where
  slices : List (Nat × SliceUsage)
deriving DecidableEq, Repr

/-- `HealthStatusInner` (`health_check.rs:75-80`); `Instant` is a natural
number. -/
structure HealthStatusInner where
  is_healthy : Bool
  last_check : Nat
  usage : Option Usage
deriving DecidableEq, Repr

/-- `set_health` (`health_check.rs:94-106`): always store the health flag
and the probe time, but replace the usage sample only when the new parse
result is present. -/
def set_health (st : HealthStatusInner) (isHealthy : Bool)
    (usage : Option Usage) (now : Nat) : HealthStatusInner :=
  { is_healthy := isHealthy
    usage := if usage.isSome then usage else st.usage
    last_check := now }

/-- The tail of `WorkerHealthCheck::check` (`health_check.rs:161-182`):
after draining the body and attempting the JSON parse, a non-200 status
records an unhealthy sample and a 200 a healthy one, in both cases passing
along the parse result. -/
def checkSetHealth (st : HealthStatusInner) (status : Nat)
    (usage : Option Usage) (now : Nat) : HealthStatusInner :=
  if status ≠ 200 then set_health st false usage now
  else set_health st true usage now

/-- `Balance::OVERLOAD_THRESHOLD`: the exact rational value of the `f32`
literal `1.2` (`slice_assignments.rs:138`). -/
def OVERLOAD_THRESHOLD : ℚ := 5033165 / 4194304

/-- `Balance::MAX_MOVES_PER_CYCLE` (`slice_assignments.rs:140`). -/
def MAX_MOVES_PER_CYCLE : Nat := 3

/-- A proposed slice move (`slice_assignments.rs:114-120`); `benefit` is
the `f32` field carried as an exact rational. -/
structure Move where
  slice_id : Nat
  from_server : SockAddr
  to_server : SockAddr
  benefit : ℚ
deriving DecidableEq, Repr

/-- `HashMap::get` over a map carried as an association list in iteration
order. -/
def lookupAssoc (m : List (SockAddr × α)) (k : SockAddr) : Option α :=
  (m.find? fun p => decide (p.1 = k)).map Prod.snd

/-- In-place value mutation through `HashMap::get_mut`: the iteration
order of the map is unchanged. -/
def updateAssoc (m : List (SockAddr × Nat)) (k : SockAddr) (f : Nat → Nat) :
    List (SockAddr × Nat) :=
  m.map fun p => if p.1 = k then (p.1, f p.2) else p

/-- `iter().max_by_key(load)` over `(slice id, load)` entries: among
equally maximal loads the element iterated last is returned, per the
`Iterator::max_by_key` contract. -/
def maxByLoadLast (l : List (Nat × Nat)) : Option (Nat × Nat) :=
  l.foldl
    (fun acc p =>
      match acc with
      | none => some p
      | some q => if q.2 ≤ p.2 then some p else some q)
    none

/-- `iter().min_by_key(load)` over `(address, load)` entries: among
equally minimal loads the element iterated first is returned, per the
`Iterator::min_by_key` contract. -/
def minByLoadFirst (l : List (SockAddr × Nat)) : Option (SockAddr × Nat) :=
  l.foldl
    (fun acc p =>
      match acc with
      | none => some p
      | some q => if p.2 < q.2 then some p else some q)
    none

/-- `Balance::calculate_imbalance` (`slice_assignments.rs:219-224`):
`max_load / (total_load / len)`, with the mean taken in integer division
as in the source; the final division is the `f32` one, exact here. -/
def calculateImbalance (servers : List (SockAddr × Nat)) : ℚ :=
  let total := (servers.map Prod.snd).sum
  let maxLoad := (servers.map Prod.snd).foldl max 0
  let meanLoad := total / servers.length
  (maxLoad : ℚ) / (meanLoad : ℚ)

/-- One iteration of the hot-server loop of `Balance::find_best_moves`
(`slice_assignments.rs:184-214`), threading the mutable `servers` load map
and the accumulated moves. Skipping every later iteration once
`MAX_MOVES_PER_CYCLE` moves exist is the `break`. -/
def moveStep (serverSlices : List (SockAddr × List (Nat × Nat)))
    (st : List (SockAddr × Nat) × List Move) (hot : SockAddr × Nat) :
    List (SockAddr × Nat) × List Move :=
  if MAX_MOVES_PER_CYCLE ≤ st.2.length then st
  else
    match (lookupAssoc serverSlices hot.1).bind maxByLoadLast with
    | none => st
    | some (largestSlice, sliceLoad) =>
      match minByLoadFirst (st.1.filter fun p => decide (¬ p.1 = hot.1)) with
      | none => st
      | some (target, _) =>
        let oldImbalance := calculateImbalance st.1
        let servers := updateAssoc (updateAssoc st.1 hot.1 (· - sliceLoad))
          target (· + sliceLoad)
        (servers,
         st.2 ++ [⟨largestSlice, hot.1, target,
           oldImbalance - calculateImbalance servers⟩])

/-- `Balance::find_best_moves` (`slice_assignments.rs:168-217`). The two
hash maps produced by `collect_server_stats` are taken as association
lists in their (seed-dependent, unspecified) iteration order: `servers`
maps each reporting worker to its summed load and `serverSlices` maps it
to its per-slice loads. The overloaded workers are filtered from a clone
of `servers`, sorted by load descending with Rust's stable sort, and
processed by `moveStep`. -/
def find_best_moves (servers : List (SockAddr × Nat))
    (serverSlices : List (SockAddr × List (Nat × Nat))) : List Move :=
  let total := (servers.map Prod.snd).sum
  let avgLoad : ℚ := (total : ℚ) / (servers.length : ℚ)
  let threshold := avgLoad * OVERLOAD_THRESHOLD
  let overloaded :=
    (servers.filter fun p => decide (threshold < (p.2 : ℚ))).insertionSort
      fun a b => b.2 ≤ a.2
  (overloaded.foldl (moveStep serverSlices) (servers, [])).2

/-- Worker addresses used in concrete instances (IPv4, ports 8080/8081
on one host, so `wA < wB`). -/
def wA : SockAddr := SockAddr.v4 8080

/-- Second concrete worker address. -/
def wB : SockAddr := SockAddr.v4 8081

/-- C9. For every probe outcome, `set_health` (as invoked from the tail of
`WorkerHealthCheck::check`) overwrites the stored usage sample only when a
fresh body parse succeeded: with a failed parse (`none`) the prior sample
is kept while the health flag and probe time are still updated, and with a
successful parse the new sample is stored. -/
theorem set_health_preserves_usage_on_failed_parse
    (st : HealthStatusInner) (status : Nat) (u : Usage) (now : Nat) :
    (checkSetHealth st status none now).usage = st.usage ∧
    (checkSetHealth st status none now).is_healthy = decide (status = 200) ∧
    (checkSetHealth st status none now).last_check = now ∧
    (checkSetHealth st status (some u) now).usage = some u := by
  by_cases h : status = 200 <;> simp [checkSetHealth, set_health, h]

/-- C3. The conditional write of `DB::write_assignments` over the
singleton `assignments` table: it commits, installs the serialized value
with the fresh timestamp and reports `(true, new_version)` exactly when
the stored version equals the expected one; otherwise it reports `false`
and leaves the stored record unchanged. Consequently a second writer that
still holds the old expected version cannot clobber the winning write. -/
theorem write_assignments_cas_semantics
    (v newTs : Int) (d sa sa2 : SliceAssignments) (expected : Int)
    (table : List Row) (ht : table = [⟨1, v, d⟩]) :
    ((write_assignments table sa expected newTs).2.1 = true ↔ v = expected) ∧
    (write_assignments table sa expected newTs).2.2 = newTs ∧
    (write_assignments table sa expected newTs).1 =
      (if v = expected then [⟨1, newTs, sa⟩] else [⟨1, v, d⟩]) ∧
    (v = expected → ¬ newTs = expected →
      (write_assignments (write_assignments table sa expected newTs).1
        sa2 expected newTs).2.1 = false ∧
      (write_assignments (write_assignments table sa expected newTs).1
        sa2 expected newTs).1 = [⟨1, newTs, sa⟩]) := by
  subst ht
  by_cases h : v = expected <;>
    simp [write_assignments, sqlCasUpdate, h]
  exact fun h2 => ⟨h2, fun h3 => absurd h3 h2⟩

/-- Witness for C3 at a concrete table: a matching expected version
commits, a stale one leaves the row unchanged, and a loser running after
the winner does not commit. -/
theorem write_assignments_cas_semantics_witness :
    (write_assignments [⟨1, 5, ⟨[], []⟩⟩] ⟨[wA], []⟩ 5 9).2.1 = true ∧
    (write_assignments [⟨1, 5, ⟨[], []⟩⟩] ⟨[wA], []⟩ 4 9).1 = [⟨1, 5, ⟨[], []⟩⟩] ∧
    (write_assignments (write_assignments [⟨1, 5, ⟨[], []⟩⟩] ⟨[wA], []⟩ 5 9).1
      ⟨[], []⟩ 5 9).2.1 = false := by
  have h1 := write_assignments_cas_semantics 5 9 ⟨[], []⟩ ⟨[wA], []⟩ ⟨[], []⟩ 5
    [⟨1, 5, ⟨[], []⟩⟩] rfl
  have h2 := write_assignments_cas_semantics 5 9 ⟨[], []⟩ ⟨[wA], []⟩ ⟨[], []⟩ 4
    [⟨1, 5, ⟨[], []⟩⟩] rfl
  refine ⟨h1.1.mpr rfl, ?_, (h1.2.2.2 rfl (by decide)).1⟩
  rw [h2.2.2.1]
  simp

/-- C5, counterexample: on a nonempty backend list in which no backend
owns the computed slice, `SliceSelection::iter` hits its explicit panic;
it neither produces a backend nor the empty-iterator outcome that the
proxy maps to a 502, so the claimed non-crashing `SliceUnassigned`
behaviour does not exist in the code. -/
theorem iter_panics_on_unassigned_slice_concrete :
    SliceSelection.iter (fun _ => 0) [⟨SockAddr.v4 1, []⟩] [] =
      SelectionResult.panicked ∧
    ([⟨SockAddr.v4 1, []⟩] : List Backend) ≠ [] ∧
    (¬ ∃ b, SliceSelection.iter (fun _ => 0) [⟨SockAddr.v4 1, []⟩] [] =
      SelectionResult.found b) ∧
    SliceSelection.iter (fun _ => 0) [⟨SockAddr.v4 1, []⟩] [] ≠
      SelectionResult.noUpstream := by
  refine ⟨rfl, by decide, ?_, by decide⟩
  rintro ⟨b, hb⟩
  rw [show SliceSelection.iter (fun _ => 0) [⟨SockAddr.v4 1, []⟩] [] =
    SelectionResult.panicked from rfl] at hb
  cases hb

/-- C5, amended: whenever the backend list is nonempty and no backend
claims the computed slice, `SliceSelection::iter` panics (the
`selection.rs:35` panic) instead of failing with a `SliceUnassigned`
error surfaced as HTTP 502; only an empty backend list produces the
empty-iterator outcome that the proxy maps to 502. -/
theorem iter_panics_on_unassigned_slice (hashFn : List Nat → Nat)
    (key : List Nat) (backends : List Backend) (hne : backends ≠ [])
    (h : ∀ b ∈ backends, ¬ (hashFn key % NUM_SLICES) ∈ b.slices) :
    SliceSelection.iter hashFn backends key = SelectionResult.panicked := by
  have hemp : backends.isEmpty = false := by
    cases backends with
    | nil => exact absurd rfl hne
    | cons a l => rfl
  have hfind : backends.find?
      (fun b => decide ((hashFn key % NUM_SLICES) ∈ b.slices)) = none := by
    rw [List.find?_eq_none]
    intro b hb
    simpa using h b hb
  simp only [SliceSelection.iter, hemp, Bool.false_eq_true, if_false, hfind]

/-- Witness for C5 (amended) at a concrete backend list: slice 0 is not
in the single slice set, so the router panics. -/
theorem iter_panics_on_unassigned_slice_witness :
    SliceSelection.iter (fun _ => 0) [⟨SockAddr.v4 1, [5]⟩] [] =
      SelectionResult.panicked :=
  iter_panics_on_unassigned_slice (fun _ => 0) [] [⟨SockAddr.v4 1, [5]⟩]
    (by decide) (by decide)

lemma optionMapList_eq_none_of_mem {f : α → Option β} (l : List α) (a : α)
    (ha : a ∈ l) (h : f a = none) : optionMapList f l = none := by
  induction l with
  | nil => cases ha
  | cons b t ih =>
    cases List.mem_cons.mp ha with
    | inl hab =>
      subst hab
      simp [optionMapList, h]
    | inr hat =>
      unfold optionMapList
      cases hfb : f b with
      | none => rfl
      | some x => rw [ih hat]; rfl

/-- C6, counterexample: both constructors called on an empty server list
return the panic marker (the ring lookup over an empty continuum returns
nothing and is unwrapped), not a `SliceAssignments` with an empty
assignments vector; and a constructor called on a list with no IPv4
address panics the same way instead of failing with a `NoEligibleWorkers`
error (no such error exists in the code). -/
theorem new_fails_on_empty_servers_concrete :
    SliceAssignments.new ringLookup [] = none ∧
    SliceAssignments.newSorted ringLookup [] = none ∧
    SliceAssignments.new ringLookup [SockAddr.v6 1] = none ∧
    none ≠ some (⟨[], []⟩ : SliceAssignments) := by
  refine ⟨rfl, rfl, rfl, by decide⟩

/-- C6, amended: for every ring satisfying the library contract that
lookup over an empty bucket list returns nothing, both constructors panic
(return `none`) on any server list containing no IPv4 address — in
particular on the empty list, where the claimed empty assignments vector
is never produced; no `NoEligibleWorkers` error is returned. -/
theorem new_fails_without_ipv4
    (ring : List SockAddr → Nat → Option SockAddr)
    (hring : ∀ s, ring [] s = none)
    (servers : List SockAddr) (hv4 : servers.filter SockAddr.isV4 = []) :
    SliceAssignments.new ring servers = none ∧
    SliceAssignments.newSorted ring servers = none := by
  have key : ∀ l : List SockAddr, l.filter SockAddr.isV4 = [] →
      SliceAssignments.new ring l = none := by
    intro l hl
    have hassign : assignSlices ring l = none := by
      unfold assignSlices
      simp only [hl]
      refine optionMapList_eq_none_of_mem _ 0 ?_ ?_
      · simp [NUM_SLICES]
      · simp [hring]
    simp [SliceAssignments.new, hassign]
  refine ⟨key servers hv4, key (sortAddrs servers) ?_⟩
  have hperm : (sortAddrs servers).Perm servers := List.perm_insertionSort _ servers
  have := (hperm.filter SockAddr.isV4)
  rw [hv4] at this
  exact this.eq_nil

/-- Witness for C6 (amended) at a concrete IPv6-only server list. -/
theorem new_fails_without_ipv4_witness :
    SliceAssignments.new ringLookup [SockAddr.v6 2] = none ∧
    SliceAssignments.newSorted ringLookup [SockAddr.v6 2] = none :=
  new_fails_without_ipv4 ringLookup (fun _ => rfl) [SockAddr.v6 2] (by decide)

/-- C7, counterexample: the `slice_assignments.rs` constructor does not
sort, so two orderings of the same worker set produce different
`SliceAssignments` values (the `servers` fields keep the two input orders,
and slice owners differ by address). -/
theorem new_depends_on_input_order :
    SliceAssignments.new ringLookup [SockAddr.v4 1, SockAddr.v4 2] ≠
      SliceAssignments.new ringLookup [SockAddr.v4 2, SockAddr.v4 1] ∧
    List.Perm [SockAddr.v4 1, SockAddr.v4 2] [SockAddr.v4 2, SockAddr.v4 1] := by
  exact ⟨by decide, by decide⟩

/-- C7, amended: the `db.rs` constructor — the one that sorts `servers`
ascending before assigning slices — is a pure function of the worker set:
it returns equal values on any two orderings of the same list, for every
ring (the bucket list is built from the sorted list). The
`slice_assignments.rs` constructor lacks the sort and is order-dependent. -/
theorem newSorted_respects_permutation
    (ring : List SockAddr → Nat → Option SockAddr)
    (l1 l2 : List SockAddr) (h : l1.Perm l2) :
    SliceAssignments.newSorted ring l1 = SliceAssignments.newSorted ring l2 := by
  have hsort : sortAddrs l1 = sortAddrs l2 :=
    List.eq_of_perm_of_sorted
      (((List.perm_insertionSort _ l1).trans h).trans
        (List.perm_insertionSort _ l2).symm)
      (List.sorted_insertionSort _ l1) (List.sorted_insertionSort _ l2)
  unfold SliceAssignments.newSorted
  rw [show sortAddrs l1 = sortAddrs l2 from hsort]

/-- Witness for C7 (amended): two orderings of a two-address set build
the same value through the sorting constructor. -/
theorem newSorted_respects_permutation_witness :
    SliceAssignments.newSorted ringLookup [SockAddr.v4 2, SockAddr.v4 1] =
      SliceAssignments.newSorted ringLookup [SockAddr.v4 1, SockAddr.v4 2] :=
  newSorted_respects_permutation ringLookup _ _ (by decide)

/-- C1. `SliceAssignments::update` keeps survivor entries as stale indices
into the old `servers` list while replacing the list, so a surviving
owner's slice can change owner address even when no server was removed.
Starting from the valid value `{servers = [wB], assignments = all 0}` and
updating to `[wA, wB]` (sorted; `wB` survives, nothing is removed, the
removed-index list is empty and the ring is never consulted), every slice
keeps index 0 — which now denotes `wA`: slice 0's owner address changes
from `wB` to `wA` although the set of slices owned by removed servers is
empty. This contradicts the claimed address-level minimality and the
survivor-index remap the spec describes. -/
theorem update_reassigns_survivor_slices :
    ∀ ring,
      SliceAssignments.update ring ⟨[wB], List.replicate NUM_SLICES 0⟩ [wA, wB] =
        some ⟨[wA, wB], List.replicate NUM_SLICES 0⟩ ∧
      (⟨[wB], List.replicate NUM_SLICES 0⟩ : SliceAssignments).ownerAddr 0 =
        some wB ∧
      (⟨[wA, wB], List.replicate NUM_SLICES 0⟩ : SliceAssignments).ownerAddr 0 =
        some wA ∧
      ¬ wA = wB ∧ wB ∈ [wA, wB] ∧
      ((enumerate [wB]).filter fun p => decide (¬ p.2 ∈ [wA, wB])) = [] := by
  intro ring
  exact ⟨rfl, rfl, rfl, by decide, by decide, rfl⟩

/-- C2. The same missing remap breaks the index invariant: starting from
the valid value `{servers = [wA, wB], assignments = all 1}` (length
`NUM_SLICES`, every entry a valid index, `servers` sorted strictly
ascending) and updating to `[wB]`, only index 0 (`wA`) is removed, so
every entry keeps the stale index 1 — out of range for the new singleton
`servers` list. -/
theorem update_breaks_index_invariant :
    ∀ ring,
      SliceAssignments.update ring ⟨[wA, wB], List.replicate NUM_SLICES 1⟩ [wB] =
        some ⟨[wB], List.replicate NUM_SLICES 1⟩ ∧
      (⟨[wA, wB], List.replicate NUM_SLICES 1⟩ : SliceAssignments).assignments.length =
        NUM_SLICES ∧
      (∀ i ∈ (⟨[wA, wB], List.replicate NUM_SLICES 1⟩ : SliceAssignments).assignments,
        i < (⟨[wA, wB], List.replicate NUM_SLICES 1⟩ : SliceAssignments).servers.length) ∧
      List.Sorted (· < ·) [wA, wB] ∧
      ¬ (∀ i ∈ (⟨[wB], List.replicate NUM_SLICES 1⟩ : SliceAssignments).assignments,
        i < (⟨[wB], List.replicate NUM_SLICES 1⟩ : SliceAssignments).servers.length) := by
  intro ring
  exact ⟨rfl, rfl, by decide, by decide, by decide⟩

/-- Load map of the concrete rebalancer snapshot: worker `.v4 8001`
reports total load 1000 and worker `.v4 8002` total load 100. -/
def rbServers : List (SockAddr × Nat) :=
  [(SockAddr.v4 8001, 1000), (SockAddr.v4 8002, 100)]

/-- Slice map of the snapshot with the hot worker's two equally loaded
slices iterated in ascending slice-id order. -/
def rbSlicesAsc : List (SockAddr × List (Nat × Nat)) :=
  [(SockAddr.v4 8001, [(0, 500), (1, 500)]), (SockAddr.v4 8002, [(2, 100)])]

/-- The same slice map (same key-value associations) with the hot
worker's entries iterated in the opposite order. -/
def rbSlicesDesc : List (SockAddr × List (Nat × Nat)) :=
  [(SockAddr.v4 8001, [(1, 500), (0, 500)]), (SockAddr.v4 8002, [(2, 100)])]

/-- C8, counterexample: two runs of `find_best_moves` over the same
snapshot — the same load and slice hash maps, differing only in the
(unspecified, seed-dependent) iteration order of the hot worker's slice
map — return different move lists, because the largest-slice tie between
slices 0 and 1 is broken by iteration order, not by slice id. -/
theorem find_best_moves_order_dependent :
    find_best_moves rbServers rbSlicesAsc ≠ find_best_moves rbServers rbSlicesDesc ∧
    List.Perm [((0 : Nat), (500 : Nat)), (1, 500)] [(1, 500), (0, 500)] := by
  refine ⟨?_, by decide⟩
  norm_num [find_best_moves, moveStep, lookupAssoc, maxByLoadLast, minByLoadFirst,
    calculateImbalance, updateAssoc, rbServers, rbSlicesAsc, rbSlicesDesc,
    OVERLOAD_THRESHOLD, MAX_MOVES_PER_CYCLE, List.insertionSort, List.orderedInsert,
    List.filter, List.foldl, List.find?, Move.mk.injEq]

/-- C8, amended: `find_best_moves` is deterministic only relative to the
iteration order of the hash maps built by `collect_server_stats`; ties on
slice load follow that order (the max search keeps the entry iterated
last), so the claimed lowest-slice-id tie-break does not hold — with
ascending iteration the tied largest slice resolves to slice 1, with
descending iteration to slice 0, while the source, the target and the
benefit of the move are unaffected. -/
theorem find_best_moves_tiebreak_by_iteration_order :
    (find_best_moves rbServers rbSlicesAsc).map Move.slice_id = [1] ∧
    (find_best_moves rbServers rbSlicesDesc).map Move.slice_id = [0] ∧
    (∀ m1 ∈ find_best_moves rbServers rbSlicesAsc,
      ∀ m2 ∈ find_best_moves rbServers rbSlicesDesc,
        m1.from_server = m2.from_server ∧ m1.to_server = m2.to_server ∧
        m1.benefit = m2.benefit) := by
  refine ⟨?_, ?_, ?_⟩ <;>
    norm_num [find_best_moves, moveStep, lookupAssoc, maxByLoadLast, minByLoadFirst,
      calculateImbalance, updateAssoc, rbServers, rbSlicesAsc, rbSlicesDesc,
      OVERLOAD_THRESHOLD, MAX_MOVES_PER_CYCLE, List.insertionSort, List.orderedInsert,
      List.filter, List.foldl, List.find?]

lemma mem_backendSlices (assignments : List Nat) (i s : Nat) :
    s ∈ backendSlices assignments i ↔ assignments.get? s = some i := by
  unfold backendSlices
  constructor
  · intro h
    obtain ⟨p, hp, hps⟩ := List.mem_map.mp h
    obtain ⟨hpe, hpi⟩ := List.mem_filter.mp hp
    have hget := (mem_enumerate p assignments).mp hpe
    have hpi2 : p.2 = i := by simpa using hpi
    rw [hps, hpi2] at hget
    exact hget
  · intro h
    refine List.mem_map.mpr ⟨(s, i), ?_, rfl⟩
    exact List.mem_filter.mpr ⟨(mem_enumerate (s, i) assignments).mpr h, by simp⟩

lemma get?_to_backends (sa : SliceAssignments) (k : Nat) :
    sa.to_backends.get? k = (sa.servers.get? k).map
      fun a => ⟨a, backendSlices sa.assignments k⟩ := by
  unfold SliceAssignments.to_backends
  rw [List.get?_map, get?_enumerate]
  cases sa.servers.get? k <;> rfl

lemma to_backends_slice_mem (sa : SliceAssignments) (s j : Nat) (b : Backend)
    (hj : sa.to_backends.get? j = some b) :
    s ∈ b.slices ↔ sa.assignments.get? s = some j := by
  rw [get?_to_backends] at hj
  cases hsv : sa.servers.get? j with
  | none => rw [hsv] at hj; simp at hj
  | some a =>
    rw [hsv] at hj
    simp only [Option.map_some'] at hj
    rw [← Option.some.inj hj]
    exact mem_backendSlices sa.assignments j s

/-- C4. Routing fidelity: for every key and hash function, if a backend
of the set derived from a valid `SliceAssignments` owns the computed
slice `hash(key) mod NUM_SLICES`, then `SliceSelection::iter` returns
exactly that backend. -/
theorem router_returns_owning_backend (hashFn : List Nat → Nat)
    (key : List Nat) (sa : SliceAssignments) (b : Backend)
    (_hsorted : List.Sorted (· ≤ ·) sa.servers) (_hnodup : sa.servers.Nodup)
    (_hlen : sa.assignments.length = NUM_SLICES)
    (_hval : ∀ i ∈ sa.assignments, i < sa.servers.length)
    (hb : b ∈ sa.to_backends) (hs : hashFn key % NUM_SLICES ∈ b.slices) :
    SliceSelection.iter hashFn sa.to_backends key = SelectionResult.found b := by
  obtain ⟨k, hk⟩ := List.mem_iff_get?.mp hb
  have hown : sa.assignments.get? (hashFn key % NUM_SLICES) = some k :=
    (to_backends_slice_mem sa _ k b hk).mp hs
  have hne : sa.to_backends.isEmpty = false := by
    cases h : sa.to_backends with
    | nil => rw [h] at hb; cases hb
    | cons x l => rfl
  have hfind : sa.to_backends.find?
      (fun c => decide ((hashFn key % NUM_SLICES) ∈ c.slices)) = some b := by
    refine find?_eq_of_unique _ _ k b hk (by simpa using hs) ?_
    intro j c hj hc
    have hjown : sa.assignments.get? (hashFn key % NUM_SLICES) = some j :=
      (to_backends_slice_mem sa _ j c hj).mp (by simpa using hc)
    exact Option.some.inj (hjown.symm.trans hown)
  simp only [SliceSelection.iter, hne, Bool.false_eq_true, if_false, hfind]

/-- The valid concrete value used to instantiate the C4 and C10
witnesses: two sorted distinct workers, every slice owned by index 1. -/
def saPair : SliceAssignments := ⟨[wA, wB], List.replicate NUM_SLICES 1⟩

/-- Witness for C4: with every slice owned by worker 1 (`wB`), the router
returns `wB`'s backend for the key hashing to slice 7. -/
theorem router_returns_owning_backend_witness :
    SliceSelection.iter (fun _ => 7) saPair.to_backends [] =
      SelectionResult.found ⟨wB, backendSlices saPair.assignments 1⟩ :=
  router_returns_owning_backend (fun _ => 7) [] saPair
    ⟨wB, backendSlices saPair.assignments 1⟩
    (by decide) (by decide) (by decide) (by decide) (by decide) (by decide)

/-- C10. For every `SliceAssignments` satisfying the data-model
invariants — `servers` sorted ascending without duplicates (the domain on
which the list model of `to_backends` coincides with the source's
address-ordered, deduplicating `BTreeSet` iteration) — whose entries are
valid indices, the slice sets of the backends produced by `to_backends`
partition the slice space: each slice `s` lies in the slice set of
exactly one backend, the one at position `assignments[s]`. -/
theorem to_backends_partitions_slices (sa : SliceAssignments)
    (_hsorted : List.Sorted (· ≤ ·) sa.servers) (_hnodup : sa.servers.Nodup)
    (hlen : sa.assignments.length = NUM_SLICES)
    (hval : ∀ i ∈ sa.assignments, i < sa.servers.length) :
    ∀ s, s < NUM_SLICES →
      ∃ k, sa.assignments.get? s = some k ∧
        (∀ j b, sa.to_backends.get? j = some b → (s ∈ b.slices ↔ j = k)) ∧
        (sa.to_backends.filter fun b => decide (s ∈ b.slices)).length = 1 := by
  intro s hs
  have hs2 : s < sa.assignments.length := by rw [hlen]; exact hs
  obtain ⟨k, hk⟩ : ∃ k, sa.assignments.get? s = some k :=
    ⟨_, List.get?_eq_get hs2⟩
  have hklt : k < sa.servers.length := hval k (List.get?_mem hk)
  obtain ⟨a, ha⟩ : ∃ a, sa.servers.get? k = some a :=
    ⟨_, List.get?_eq_get hklt⟩
  have hbk : sa.to_backends.get? k = some ⟨a, backendSlices sa.assignments k⟩ := by
    rw [get?_to_backends, ha]
    rfl
  have hmem : s ∈ (⟨a, backendSlices sa.assignments k⟩ : Backend).slices :=
    (mem_backendSlices sa.assignments k s).mpr hk
  have huniq : ∀ j c, sa.to_backends.get? j = some c →
      (decide (s ∈ c.slices)) = true → j = k := by
    intro j c hj hc
    have hjown : sa.assignments.get? s = some j :=
      (to_backends_slice_mem sa s j c hj).mp (by simpa using hc)
    exact Option.some.inj (hjown.symm.trans hk)
  refine ⟨k, hk, ?_, ?_⟩
  · intro j b hj
    constructor
    · intro hsb
      exact huniq j b hj (by simpa using hsb)
    · rintro rfl
      rw [hbk] at hj
      rw [← Option.some.inj hj]
      exact hmem
  · exact filter_length_one_of_unique _ _ k _ hbk (by simpa using hmem) huniq

/-- Witness for C10: in the concrete valid value `saPair`, slice 7 lies in
exactly one slice set, the one of the backend at index 1. -/
theorem to_backends_partitions_slices_witness :
    ∃ k, saPair.assignments.get? 7 = some k ∧
      (∀ j b, saPair.to_backends.get? j = some b → (7 ∈ b.slices ↔ j = k)) ∧
      (saPair.to_backends.filter fun b => decide (7 ∈ b.slices)).length = 1 :=
  to_backends_partitions_slices saPair (by decide) (by decide) (by decide)
    (by decide) 7 (by decide)
